import Mathlib

/-!
# keyid/ui: platform window types and clipboard surface

Shallow embedding of `src/window/Types.h` and `src/clipboard/Clipboard.h`.

* C `int` values are Lean `Int`; every C `int` is an `Int`, so a statement
  over all of `Int` covers every machine value.
* C `|` and `&` on `int` are `Int.lor` and `Int.land` (two's complement
  bitwise semantics, infinite sign extension).
* C `a << b` on `int` constants is `a <<< b` on `Int`.
* An enumerator without an initialiser is the preceding enumerator plus one.
-/

namespace Types

/-! ## Event kinds: `src/window/Types.h`, lines 13-24 -/

def platformMouseDown : Int := 0
def platformMouseDragged : Int := platformMouseDown + 1
def platformMouseUp : Int := platformMouseDragged + 1
def platformMouseEntered : Int := platformMouseUp + 1
def platformMouseMoved : Int := platformMouseEntered + 1
def platformMouseExited : Int := platformMouseMoved + 1
def platformMouseWheel : Int := platformMouseExited + 1
def platformKeyDown : Int := platformMouseWheel + 1
def platformKeyTyped : Int := platformKeyDown + 1
def platformKeyUp : Int := platformKeyTyped + 1

/-- The enumerators of the first anonymous `enum`, in declaration order. -/
inductive EventKind
  | mouseDown
  | mouseDragged
  | mouseUp
  | mouseEntered
  | mouseMoved
  | mouseExited
  | mouseWheel
  | keyDown
  | keyTyped
  | keyUp
  deriving DecidableEq, Repr

/-- The integer constant each enumerator stands for. -/
def EventKind.tag : EventKind → Int
  | .mouseDown => platformMouseDown
  | .mouseDragged => platformMouseDragged
  | .mouseUp => platformMouseUp
  | .mouseEntered => platformMouseEntered
  | .mouseMoved => platformMouseMoved
  | .mouseExited => platformMouseExited
  | .mouseWheel => platformMouseWheel
  | .keyDown => platformKeyDown
  | .keyTyped => platformKeyTyped
  | .keyUp => platformKeyUp

/-- Every enumerator of the event enumeration, in declaration order. -/
def EventKind.all : List EventKind :=
  [.mouseDown, .mouseDragged, .mouseUp, .mouseEntered, .mouseMoved,
   .mouseExited, .mouseWheel, .keyDown, .keyTyped, .keyUp]

/-! ## Window style masks: `src/window/Types.h`, lines 26-32 -/

def platformBorderlessWindowMask : Int := 0
def platformTitledWindowMask : Int := 1 <<< (0 : Int)
def platformClosableWindowMask : Int := 1 <<< (1 : Int)
def platformMinimizableWindowMask : Int := 1 <<< (2 : Int)
def platformResizableWindowMask : Int := 1 <<< (3 : Int)

/-- The four flags that are single bits. -/
def bitFlags : List Int :=
  [platformTitledWindowMask, platformClosableWindowMask,
   platformMinimizableWindowMask, platformResizableWindowMask]

/-- All five declared flags of the second anonymous `enum`. -/
def styleFlags : List Int := platformBorderlessWindowMask :: bitFlags

/-- The mask `0 | f1 | f2 | ... | fn` a caller builds from the flags `fs`. -/
def orAll (fs : List Int) : Int := fs.foldl Int.lor 0

/-- The four single-bit enumerators of the second anonymous `enum`, by name. -/
inductive StyleFlag
  | titled
  | closable
  | minimizable
  | resizable
  deriving DecidableEq, Repr

/-- The integer constant each named flag stands for. -/
def StyleFlag.mask : StyleFlag → Int
  | .titled => platformTitledWindowMask
  | .closable => platformClosableWindowMask
  | .minimizable => platformMinimizableWindowMask
  | .resizable => platformResizableWindowMask

/-- The four named flags, in declaration order. -/
def StyleFlag.all : List StyleFlag := [.titled, .closable, .minimizable, .resizable]

/-- The mask `0 | f1 | ... | fn` built from the named flags `S`. -/
def maskOf (S : List StyleFlag) : Int := orAll (S.map StyleFlag.mask)

/-- The mask of a subset of the named flags, OR-ed in declaration order. -/
def maskOfSubset (S : Finset StyleFlag) : Int :=
  maskOf (StyleFlag.all.filter (fun f => f ∈ S))

/-- The integers `0, 1, ..., 15`. -/
def masks16 : List Int := (List.range 16).map Int.ofNat

/-- The integers `0, 1, ..., 9`. -/
def tags10 : List Int := (List.range 10).map Int.ofNat

/-- The masks obtainable as the bitwise OR of any of the five declared flags,
taken in any order and any number of times. -/
def obtainableMasks : Set Int :=
  {m | ∃ fs : List Int, (∀ f ∈ fs, f ∈ styleFlags) ∧ orAll fs = m}

end Types

namespace Clipboard

/-! ## Clipboard surface: `src/clipboard/Clipboard.h` -/

/-- One byte of a buffer. -/
abbrev Byte := Fin 256

/-- Modelled from the spec: the native pasteboard that the forwarders query,
"OS-managed shared data-transfer buffer keyed by type identifiers". It is
owned by the operating system and is not part of the sources; it is taken as
the type identifiers present and the bytes held for each identifier. -/
structure Pasteboard where
  types : List String
  bytes : String → List Byte

/-- Modelled from the spec: the body of `clipboardTypes` (declared on line 20,
defined outside the sources), "array of string, null-terminated": one entry
per type identifier followed by the null pointer `none`. -/
def clipboardTypes (pb : Pasteboard) : List (Option String) :=
  pb.types.map some ++ [none]

/-- A caller walking the returned array from index 0 until the first null
entry, collecting the strings it visits. Running off the end of the array
without meeting a null entry is `none`. -/
def visitUntilNull : List (Option String) → Option (List String)
  | [] => none
  | none :: _ => some []
  | some s :: rest => (visitUntilNull rest).map (fun visited => s :: visited)

end Clipboard

/-! ## Bitwise facts used below -/

namespace Types

theorem ldiff_zero_right (n : Nat) : Nat.ldiff n 0 = n := by
  apply Nat.eq_of_testBit_eq
  intro i
  simp [Nat.testBit_ldiff]

theorem ldiff_zero_left (n : Nat) : Nat.ldiff 0 n = 0 := by
  apply Nat.eq_of_testBit_eq
  intro i
  simp [Nat.testBit_ldiff]

theorem lor_zero (m : Int) : Int.lor m 0 = m := by
  cases m with
  | ofNat n => show ((n ||| 0 : Nat) : Int) = _ ; simp
  | negSucc n => show Int.negSucc (Nat.ldiff n 0) = _ ; rw [ldiff_zero_right]

theorem zero_lor (m : Int) : Int.lor 0 m = m := by
  cases m with
  | ofNat n => show ((0 ||| n : Nat) : Int) = _ ; simp
  | negSucc n => show Int.negSucc (Nat.ldiff n 0) = _ ; rw [ldiff_zero_right]

theorem land_zero (m : Int) : Int.land m 0 = 0 := by
  cases m with
  | ofNat n => show ((n &&& 0 : Nat) : Int) = _ ; simp
  | negSucc n => show ((Nat.ldiff 0 n : Nat) : Int) = _ ; rw [ldiff_zero_left]; rfl

theorem zero_land (m : Int) : Int.land 0 m = 0 := by
  cases m with
  | ofNat n => show ((0 &&& n : Nat) : Int) = _ ; simp
  | negSucc n => show ((Nat.ldiff 0 n : Nat) : Int) = _ ; rw [ldiff_zero_left]; rfl

/-- One OR step on a mask in `0..15`: the result stays in `0..15` and has a
flag bit exactly when the mask had it or the flag is the one just added. -/
theorem step_spec : ∀ a ∈ masks16, ∀ x ∈ styleFlags, ∀ f ∈ bitFlags,
    Int.lor a x ∈ masks16 ∧
      (Int.land (Int.lor a x) f ≠ 0 ↔ (Int.land a f ≠ 0 ∨ f = x)) := by
  decide

/-- Folding OR over a list of declared flags, from any accumulator in `0..15`. -/
theorem foldl_spec (l : List Int) : ∀ acc ∈ masks16, (∀ x ∈ l, x ∈ styleFlags) →
    l.foldl Int.lor acc ∈ masks16 ∧
      ∀ f ∈ bitFlags,
        (Int.land (l.foldl Int.lor acc) f ≠ 0 ↔ (Int.land acc f ≠ 0 ∨ f ∈ l)) := by
  induction l with
  | nil => intro acc hacc _; exact ⟨hacc, fun f _ => by simp⟩
  | cons x t ih =>
    intro acc hacc hl
    have hx : x ∈ styleFlags := hl x (List.mem_cons_self _ _)
    have ht : ∀ y ∈ t, y ∈ styleFlags := fun y hy => hl y (List.mem_cons_of_mem _ hy)
    have hstep := step_spec acc hacc x hx
    have h1 : Int.lor acc x ∈ masks16 := (hstep platformTitledWindowMask (by decide)).1
    obtain ⟨hr, hbits⟩ := ih (Int.lor acc x) h1 ht
    refine ⟨hr, fun f hf => ?_⟩
    rw [List.foldl_cons, hbits f hf, (hstep f hf).2, List.mem_cons]
    tauto

theorem mem_masks16 (m : Int) : m ∈ masks16 ↔ 0 ≤ m ∧ m ≤ 15 := by
  constructor
  · revert m; decide
  · rintro ⟨h0, h15⟩
    interval_cases m <;> decide

/-- The mask of a list of declared flags lies in `0..15` and has a flag bit
exactly when the flag is in the list. -/
theorem orAll_spec (fs : List Int) (h : ∀ f ∈ fs, f ∈ styleFlags) :
    orAll fs ∈ masks16 ∧ ∀ f ∈ bitFlags, (Int.land (orAll fs) f ≠ 0 ↔ f ∈ fs) := by
  obtain ⟨hr, hbits⟩ := foldl_spec fs 0 (by decide) h
  refine ⟨hr, fun f hf => ?_⟩
  have := hbits f hf
  rw [zero_land] at this
  simpa [orAll] using this

end Types

/-! ## Window style masks -/

namespace Types

/-- C1: the four flags titled, closable, minimizable and resizable are
pairwise distinct, and for every subset `S` of them (given as any list of its
members, or as a finite set), the OR `m` of the members of `S` (0 for the empty
subset) satisfies, for each of the four flags `f`, `(m & f) != 0` if and only
if `f` is in `S`; consequently two different subsets give two different
masks. -/
theorem style_flags_or_lossless (S T : List StyleFlag) :
    bitFlags.Nodup ∧
    StyleFlag.all.map StyleFlag.mask = bitFlags ∧
    (∀ f : StyleFlag, f ∈ StyleFlag.all) ∧
    Function.Injective StyleFlag.mask ∧
    maskOf [] = 0 ∧
    (∀ f : StyleFlag, (Int.land (maskOf S) f.mask ≠ 0 ↔ f ∈ S)) ∧
    ((¬ ∀ f, (f ∈ S ↔ f ∈ T)) → maskOf S ≠ maskOf T) ∧
    (∀ A : Finset StyleFlag, ∀ f : StyleFlag,
      (Int.land (maskOfSubset A) f.mask ≠ 0 ↔ f ∈ A)) ∧
    Function.Injective maskOfSubset := by
  have hall : ∀ f : StyleFlag, f ∈ StyleFlag.all := by intro f; cases f <;> decide
  have hinj : Function.Injective StyleFlag.mask := by
    intro a b h
    cases a <;> cases b <;> first | rfl | exact absurd h (by decide)
  have hbit : ∀ f : StyleFlag, f.mask ∈ bitFlags := by intro f; cases f <;> decide
  have hiff : ∀ (L : List StyleFlag) (f : StyleFlag),
      (Int.land (maskOf L) f.mask ≠ 0 ↔ f ∈ L) := by
    intro L f
    have hL : ∀ x ∈ L.map StyleFlag.mask, x ∈ styleFlags := by
      intro x hx
      obtain ⟨g, -, rfl⟩ := List.mem_map.mp hx
      exact List.mem_cons_of_mem _ (hbit g)
    have h := (orAll_spec (L.map StyleFlag.mask) hL).2 f.mask (hbit f)
    rw [List.mem_map_of_injective hinj] at h
    exact h
  have hsub : ∀ (A : Finset StyleFlag) (f : StyleFlag),
      (Int.land (maskOfSubset A) f.mask ≠ 0 ↔ f ∈ A) := by
    intro A f
    unfold maskOfSubset
    rw [hiff, List.mem_filter]
    simp [hall f]
  refine ⟨by decide, rfl, hall, hinj, rfl, hiff S, ?_, hsub, ?_⟩
  · intro hne heq
    exact hne fun f => by rw [← hiff S f, ← hiff T f, heq]
  · intro A B hAB
    ext f
    rw [← hsub A f, ← hsub B f]
    exact iff_of_eq (congrArg (fun m => Int.land m f.mask ≠ 0) hAB)

/-- C2: the event-kind enumeration has exactly ten enumerators, with the
values 0, 1, ..., 9 in declaration order (seven mouse kinds, then three key
kinds); the map from event kind to tag is injective and its image is exactly
the integers 0 to 9. -/
theorem event_tags_fixed_distinct :
    (platformMouseDown = 0 ∧ platformMouseDragged = 1 ∧ platformMouseUp = 2 ∧
      platformMouseEntered = 3 ∧ platformMouseMoved = 4 ∧ platformMouseExited = 5 ∧
      platformMouseWheel = 6 ∧ platformKeyDown = 7 ∧ platformKeyTyped = 8 ∧
      platformKeyUp = 9) ∧
    (∀ k : EventKind, k ∈ EventKind.all) ∧
    EventKind.all.length = 10 ∧
    EventKind.all.map EventKind.tag = [0, 1, 2, 3, 4, 5, 6, 7, 8, 9] ∧
    Function.Injective EventKind.tag ∧
    Set.range EventKind.tag = {n : Int | 0 ≤ n ∧ n ≤ 9} := by
  refine ⟨by decide, ?_, rfl, by decide, ?_, ?_⟩
  · intro k; cases k <;> decide
  · intro a b h
    cases a <;> cases b <;> first | rfl | exact absurd h (by decide)
  · ext n
    constructor
    · rintro ⟨k, rfl⟩
      cases k <;> exact ⟨by decide, by decide⟩
    · rintro ⟨h0, h9⟩
      have hmem : n ∈ tags10 := by interval_cases n <;> decide
      have hall : ∀ t ∈ tags10, ∃ k ∈ EventKind.all, EventKind.tag k = t := by decide
      obtain ⟨k, -, hk⟩ := hall n hmem
      exact ⟨k, hk⟩

/-- C5: `platformBorderlessWindowMask` is the value 0: for every integer mask
`m`, OR-ing it into `m` (on either side) gives `m` and AND-ing `m` with it
gives 0; and a mask built from the declared style flags equals it if and only
if none of the titled, closable, minimizable and resizable bits is set. -/
theorem borderless_is_zero (m : Int) (fs : List Int) (hfs : ∀ f ∈ fs, f ∈ styleFlags) :
    platformBorderlessWindowMask = 0 ∧
    Int.lor m platformBorderlessWindowMask = m ∧
    Int.lor platformBorderlessWindowMask m = m ∧
    Int.land m platformBorderlessWindowMask = 0 ∧
    Int.land platformBorderlessWindowMask m = 0 ∧
    (orAll fs = platformBorderlessWindowMask ↔
      ∀ f ∈ bitFlags, Int.land (orAll fs) f = 0) := by
  refine ⟨rfl, lor_zero m, zero_lor m, land_zero m, zero_land m, ?_⟩
  have hall : ∀ a ∈ masks16, (a = platformBorderlessWindowMask ↔
      ∀ f ∈ bitFlags, Int.land a f = 0) := by decide
  exact hall _ (orAll_spec fs hfs).1

/-- C5 at the mask -7 and the flag list borderless, titled, borderless. -/
theorem borderless_is_zero_witness :
    (∀ f ∈ [platformBorderlessWindowMask, platformTitledWindowMask,
        platformBorderlessWindowMask], f ∈ styleFlags) ∧
    (platformBorderlessWindowMask = 0 ∧
      Int.lor (-7) platformBorderlessWindowMask = -7 ∧
      Int.lor platformBorderlessWindowMask (-7) = -7 ∧
      Int.land (-7) platformBorderlessWindowMask = 0 ∧
      Int.land platformBorderlessWindowMask (-7) = 0 ∧
      (orAll [platformBorderlessWindowMask, platformTitledWindowMask,
          platformBorderlessWindowMask] = platformBorderlessWindowMask ↔
        ∀ f ∈ bitFlags, Int.land (orAll [platformBorderlessWindowMask,
          platformTitledWindowMask, platformBorderlessWindowMask]) f = 0)) :=
  ⟨by decide,
    borderless_is_zero (-7)
      [platformBorderlessWindowMask, platformTitledWindowMask, platformBorderlessWindowMask]
      (by decide)⟩

/-- C6: the masks obtainable by bitwise OR of the five declared flags are
exactly the integers 0 to 15, which are 16 distinct masks, the OR of all five
flags being 15; and the set is closed under bitwise OR and bitwise AND. -/
theorem obtainable_masks_closed (a b : Int)
    (ha : a ∈ obtainableMasks) (hb : b ∈ obtainableMasks) :
    obtainableMasks = {m : Int | 0 ≤ m ∧ m ≤ 15} ∧
    (styleFlags.sublists.map orAll).toFinset = Finset.Icc 0 15 ∧
    (styleFlags.sublists.map orAll).toFinset.card = 16 ∧
    orAll styleFlags = 15 ∧
    Int.lor a b ∈ obtainableMasks ∧
    Int.land a b ∈ obtainableMasks := by
  have hset : ∀ m : Int, m ∈ obtainableMasks ↔ m ∈ masks16 := by
    intro m
    constructor
    · rintro ⟨fs, hfs, rfl⟩
      exact (orAll_spec fs hfs).1
    · intro hm
      have hall : ∀ t ∈ masks16, ∃ fs ∈ styleFlags.sublists, orAll fs = t := by decide
      obtain ⟨fs, hsub, hfs⟩ := hall m hm
      exact ⟨fs, fun f hf => (List.mem_sublists.mp hsub).subset hf, hfs⟩
  have hclosed : ∀ x ∈ masks16, ∀ y ∈ masks16,
      Int.lor x y ∈ masks16 ∧ Int.land x y ∈ masks16 := by decide
  have hab := hclosed a ((hset a).mp ha) b ((hset b).mp hb)
  refine ⟨?_, by decide, by decide, by decide, (hset _).mpr hab.1, (hset _).mpr hab.2⟩
  ext m
  rw [hset m, mem_masks16]
  rfl

/-- C6 at the masks 5 = titled | minimizable and 12 = minimizable | resizable. -/
theorem obtainable_masks_closed_witness :
    (5 : Int) ∈ obtainableMasks ∧ (12 : Int) ∈ obtainableMasks ∧
    (obtainableMasks = {m : Int | 0 ≤ m ∧ m ≤ 15} ∧
      (styleFlags.sublists.map orAll).toFinset = Finset.Icc 0 15 ∧
      (styleFlags.sublists.map orAll).toFinset.card = 16 ∧
      orAll styleFlags = 15 ∧
      Int.lor 5 12 ∈ obtainableMasks ∧
      Int.land 5 12 ∈ obtainableMasks) :=
  have h5 : (5 : Int) ∈ obtainableMasks :=
    ⟨[platformTitledWindowMask, platformMinimizableWindowMask], by decide, by decide⟩
  have h12 : (12 : Int) ∈ obtainableMasks :=
    ⟨[platformMinimizableWindowMask, platformResizableWindowMask], by decide, by decide⟩
  ⟨h5, h12, obtainable_masks_closed 5 12 h5 h12⟩

end Types

/-! ## Clipboard -/

namespace Clipboard

theorem visitUntilNull_types (ts : List String) :
    visitUntilNull (ts.map some ++ [none]) = some ts := by
  induction ts with
  | nil => rfl
  | cons t rest ih => simp [visitUntilNull, ih]

/-- C3: for every clipboard state the array returned by `clipboardTypes` has
an index `n` whose entry is the null pointer while every entry before `n` is a
string, and a caller iterating until the first null entry visits every type
and stops inside the array. -/
theorem clipboardTypes_null_terminated (pb : Pasteboard) :
    (∃ n : Nat, (clipboardTypes pb)[n]? = some none ∧
      (∀ i < n, ∃ s : String, (clipboardTypes pb)[i]? = some (some s)) ∧
      n + 1 = (clipboardTypes pb).length) ∧
    visitUntilNull (clipboardTypes pb) = some pb.types := by
  refine ⟨⟨pb.types.length, ?_, ?_, ?_⟩, visitUntilNull_types pb.types⟩
  · simp [clipboardTypes]
  · intro i hi
    refine ⟨pb.types[i], ?_⟩
    simp [clipboardTypes, List.getElem?_append_left, hi]
  · simp [clipboardTypes]

end Clipboard
